import Mathlib

/-!
Verification of the sparrow-extensions repository: the variable-shape-tensor
extension's metadata model (validation, axis-count derivation, JSON
serialization and parsing), the composite variable-shape tensor array
(checked construction, bounds-checked access, iteration, structural
validity), and the JSON-text extension registration table.

The variable-shape-tensor implementation header is not part of the source
tree here (only its test suite is), so its operations are modelled from the
specification's description and checked against the concrete behaviour the
test suite demands.  The JSON-text registration table is embedded directly
from `include/sparrow_extensions/json_array.hpp`.
-/

namespace SparrowExtensions

/-- Modelled from the spec: `TensorMetadata`, a record of three optional
sequences — `dim_names` (strings, one per axis), `permutation` (integers,
physical-to-logical axis mapping), `uniform_shape` (optionally-known
positive extents, `none` = unknown axis). -/
structure TensorMetadata where
  dim_names : Option (List String)
  permutation : Option (List Int)
  uniform_shape : Option (List (Option Int))
deriving DecidableEq

namespace TensorMetadata

/-- Lengths of the fields that are present, in field order. -/
def presentLengths (m : TensorMetadata) : List Nat :=
  (m.dim_names.toList.map List.length)
    ++ (m.permutation.toList.map List.length)
    ++ (m.uniform_shape.toList.map List.length)

/-- All entries of the list equal its head. -/
def allEqNat : List Nat → Bool
  | [] => true
  | n :: rest => rest.all (fun k => k == n)

/-- Whether the list holds some value twice. -/
def hasDup : List Int → Bool
  | [] => false
  | x :: xs => xs.contains x || hasDup xs

/-- A present permutation must be non-empty, duplicate-free, and each entry
must lie in `[0, ndim)` where `ndim` is its own length (equal to the common
length whenever the length invariant holds). -/
def permOk (p : List Int) : Bool :=
  !p.isEmpty && !hasDup p && p.all (fun x => 0 ≤ x && x < (p.length : Int))

/-- A known uniform-shape entry must be strictly positive. -/
def shapeEntryOk : Option Int → Bool
  | none => true
  | some v => 0 < v

/-- The permutation-specific invariant, vacuous when absent. -/
def permPartOk (m : TensorMetadata) : Bool :=
  match m.permutation with
  | none => true
  | some p => permOk p

/-- The uniform-shape-specific invariant, vacuous when absent. -/
def uniformPartOk (m : TensorMetadata) : Bool :=
  match m.uniform_shape with
  | none => true
  | some u => u.all shapeEntryOk

/-- Modelled from the spec: `is_valid()` recomputes the invariants — any two
present fields agree on length; a present permutation is non-empty, has no
duplicate, no negative and no out-of-range entry; every known
`uniform_shape` entry is strictly positive. -/
def is_valid (m : TensorMetadata) : Bool :=
  allEqNat m.presentLengths && permPartOk m && uniformPartOk m

/-- Modelled from the spec: `get_ndim()` returns the length of the first
present field in priority order `dim_names`, `permutation`,
`uniform_shape`, and no value when all three are absent. -/
def get_ndim (m : TensorMetadata) : Option Nat :=
  match m.dim_names with
  | some d => some d.length
  | none =>
    match m.permutation with
    | some p => some p.length
    | none => m.uniform_shape.map List.length

end TensorMetadata

/-! JSON text infrastructure shared by `to_json` and `from_json`.  Special
characters are referred to through named constants. -/

/-- The opening brace character. -/
def lbrace : Char := Char.ofNat 123

/-- The closing brace character. -/
def rbrace : Char := Char.ofNat 125

/-- The double-quote character. -/
def quoteC : Char := Char.ofNat 34

/-- The backslash character. -/
def backslashC : Char := Char.ofNat 92

/-- Decimal digit character for a value below ten. -/
def digitChar (n : Nat) : Char := Char.ofNat (48 + n % 10)

/-- Digit-accumulating worker for `natChars`; the fuel only has to exceed
the value for the recursion to finish on its own. -/
def natCharsAux : Nat → Nat → List Char → List Char
  | 0, _, acc => acc
  | fuel + 1, n, acc =>
    if n < 10 then digitChar n :: acc
    else natCharsAux fuel (n / 10) (digitChar (n % 10) :: acc)

/-- Decimal digits of a natural number, most significant first. -/
def natChars (n : Nat) : List Char :=
  natCharsAux (n + 1) n []

/-- Decimal rendering of an integer, with a leading minus sign when
negative. -/
def intChars (i : Int) : List Char :=
  if i < 0 then '-' :: natChars i.natAbs else natChars i.toNat

/-- JSON escaping of one character: quotes and backslashes are
backslash-escaped, every other character stands for itself. -/
def escapeChar (c : Char) : List Char :=
  if c = quoteC || c = backslashC then [backslashC, c] else [c]

/-- JSON escaping of a whole string's characters. -/
def escapeString (s : String) : List Char :=
  (s.data.map escapeChar).flatten

/-- A JSON string literal: escaped characters between double quotes. -/
def jsonStringChars (s : String) : List Char :=
  quoteC :: escapeString s ++ [quoteC]

/-- Comma-separated concatenation. -/
def sepByComma : List (List Char) → List Char
  | [] => []
  | [x] => x
  | x :: y :: xs => x ++ ',' :: sepByComma (y :: xs)

/-- A JSON array literal over already-rendered elements. -/
def arrayChars (elems : List (List Char)) : List Char :=
  '[' :: sepByComma elems ++ [']']

/-- One rendered `uniform_shape` entry: a number, or the `null` literal for
an unknown axis. -/
def uniformEntryChars : Option Int → List Char
  | none => ['n', 'u', 'l', 'l']
  | some v => intChars v

/-- One rendered object member `"key":value` (keys are the three fixed
field names, which need no escaping). -/
def memberChars (key : String) (val : List Char) : List Char :=
  quoteC :: key.data ++ quoteC :: ':' :: val

namespace TensorMetadata

/-- The rendered members of a metadata value, absent fields omitted, in the
fixed order `dim_names`, `permutation`, `uniform_shape`. -/
def metadataMembers (m : TensorMetadata) : List (List Char) :=
  (match m.dim_names with
   | none => []
   | some d => [memberChars "dim_names" (arrayChars (d.map jsonStringChars))])
  ++ (match m.permutation with
      | none => []
      | some p => [memberChars "permutation" (arrayChars (p.map intChars))])
  ++ (match m.uniform_shape with
      | none => []
      | some u => [memberChars "uniform_shape" (arrayChars (u.map uniformEntryChars))])

/-- Modelled from the spec: `to_json()` renders a compact object, keys in
the fixed order `dim_names`, `permutation`, `uniform_shape`, omitting
absent fields; strings are quoted (quotes and backslashes escaped so the
spec's round-trip law holds for every value), unknown `uniform_shape`
entries render as the `null` literal, and the all-absent value renders as
the empty object. -/
def to_json (m : TensorMetadata) : String :=
  ⟨lbrace :: sepByComma m.metadataMembers ++ [rbrace]⟩

end TensorMetadata

/-! JSON parsing.  All parsers work on plain character lists and return the
parsed value together with the unconsumed suffix; `none` is a parse
error.  The loops over arbitrarily many elements or members run on an
explicit fuel budget, which the entry point sets to the input length plus
one — ample, since every element consumes at least one character. -/

/-- JSON insignificant whitespace. -/
def isWsChar (c : Char) : Bool :=
  c == ' ' || c == '\t' || c == '\n' || c == '\r'

/-- Drop leading insignificant whitespace. -/
def skipWs : List Char → List Char
  | [] => []
  | c :: cs => if isWsChar c then skipWs cs else c :: cs

/-- Parse a string body after its opening quote, un-escaping
backslash-escaped characters, up to the closing quote; fails on an
unterminated string. -/
def parseStringBody : List Char → Option (List Char × List Char)
  | [] => none
  | c :: cs =>
    if c = quoteC then some ([], cs)
    else if c = backslashC then
      match cs with
      | [] => none
      | d :: ds => (parseStringBody ds).map (fun r => (d :: r.1, r.2))
    else (parseStringBody cs).map (fun r => (c :: r.1, r.2))

/-- Decimal digit recognition by code point. -/
def isDigitChar (c : Char) : Bool :=
  48 ≤ c.toNat && c.toNat ≤ 57

/-- Consume leading decimal digits into an accumulator. -/
def parseDigits (acc : Nat) : List Char → Nat × List Char
  | [] => (acc, [])
  | c :: cs =>
    if isDigitChar c then parseDigits (acc * 10 + (c.toNat - 48)) cs
    else (acc, c :: cs)

/-- Parse a non-empty run of decimal digits. -/
def parseNat (l : List Char) : Option (Nat × List Char) :=
  match l with
  | [] => none
  | c :: _ => if isDigitChar c then some (parseDigits 0 l) else none

/-- Parse an optionally negated decimal integer. -/
def parseInt (l : List Char) : Option (Int × List Char) :=
  match l with
  | [] => none
  | c :: cs =>
    if c = '-' then (parseNat cs).map (fun r => (-(r.1 : Int), r.2))
    else (parseNat (c :: cs)).map (fun r => ((r.1 : Int), r.2))

/-- Parse a JSON string literal (opening quote included). -/
def parseJsonString (l : List Char) : Option (String × List Char) :=
  match l with
  | c :: cs =>
    if c = quoteC then (parseStringBody cs).map (fun r => (⟨r.1⟩, r.2))
    else none
  | [] => none

/-- Parse one `uniform_shape` entry: the `null` literal for an unknown
axis, or an integer. -/
def parseUniformEntry (l : List Char) : Option (Option Int × List Char) :=
  if l.take 4 = ['n', 'u', 'l', 'l'] then some (none, l.drop 4)
  else (parseInt l).map (fun r => (some r.1, r.2))

/-- Parse the comma-separated elements of a non-empty array up to and
including the closing bracket, tolerating whitespace around elements. -/
def parseElems (pe : List Char → Option (α × List Char)) :
    Nat → List Char → Option (List α × List Char)
  | 0, _ => none
  | fuel + 1, cs =>
    match pe (skipWs cs) with
    | none => none
    | some (a, r) =>
      match skipWs r with
      | [] => none
      | c :: r2 =>
        if c = ',' then
          (parseElems pe fuel r2).map (fun r3 => (a :: r3.1, r3.2))
        else if c = ']' then some ([a], r2)
        else none

/-- Parse a whole JSON array with the given element parser. -/
def parseArray (pe : List Char → Option (α × List Char)) (fuel : Nat)
    (cs : List Char) : Option (List α × List Char) :=
  match skipWs cs with
  | [] => none
  | c :: r =>
    if c = '[' then
      match skipWs r with
      | [] => none
      | c2 :: r2 =>
        if c2 = ']' then some ([], r2)
        else parseElems pe fuel (c2 :: r2)
    else none

mutual

/-- Skip one well-formed JSON value of any shape: used for the values of
unrecognized keys, which parsing ignores but must still find well-formed. -/
def skipValue : Nat → List Char → Option (List Char)
  | 0, _ => none
  | fuel + 1, cs =>
    match skipWs cs with
    | [] => none
    | c :: r =>
      if c = quoteC then (parseStringBody r).map (fun p => p.2)
      else if c = '[' then
        match skipWs r with
        | ']' :: r2 => some r2
        | r2 => skipCommaList fuel r2
      else if c = lbrace then
        match skipWs r with
        | c2 :: r2 =>
          if c2 = rbrace then some r2 else skipMembers fuel (c2 :: r2)
        | [] => none
      else
        match c :: r with
        | 't' :: 'r' :: 'u' :: 'e' :: r2 => some r2
        | 'f' :: 'a' :: 'l' :: 's' :: 'e' :: r2 => some r2
        | 'n' :: 'u' :: 'l' :: 'l' :: r2 => some r2
        | l => (parseInt l).map (fun p => p.2)

/-- Skip the remaining comma-separated values of a non-empty generic array,
closing bracket included. -/
def skipCommaList : Nat → List Char → Option (List Char)
  | 0, _ => none
  | fuel + 1, cs =>
    match skipValue fuel cs with
    | none => none
    | some r =>
      match skipWs r with
      | ',' :: r2 => skipCommaList fuel r2
      | ']' :: r2 => some r2
      | _ => none

/-- Skip the remaining members of a non-empty generic object, closing brace
included. -/
def skipMembers : Nat → List Char → Option (List Char)
  | 0, _ => none
  | fuel + 1, cs =>
    match skipWs cs with
    | c :: r =>
      if c = quoteC then
        match parseStringBody r with
        | none => none
        | some (_, r2) =>
          match skipWs r2 with
          | ':' :: r3 =>
            match skipValue fuel r3 with
            | none => none
            | some r4 =>
              match skipWs r4 with
              | ',' :: r5 => skipMembers fuel r5
              | c2 :: r5 => if c2 = rbrace then some r5 else none
              | [] => none
          | _ => none
      else none
    | [] => none

end

namespace TensorMetadata

/-- The all-absent metadata value. -/
def emptyMeta : TensorMetadata := ⟨none, none, none⟩

/-- Parse the value of one recognized or unknown key and record it on the
accumulator: the three recognized keys take typed arrays (a `null` array
element of `uniform_shape` becoming an unknown entry), any other key's
value is skipped after a well-formedness check. -/
def parseMemberValue (fuel : Nat) (acc : TensorMetadata) (key : String)
    (cs : List Char) : Option (TensorMetadata × List Char) :=
  if key = "dim_names" then
    (parseArray parseJsonString fuel cs).map
      (fun r => ({ acc with dim_names := some r.1 }, r.2))
  else if key = "permutation" then
    (parseArray parseInt fuel cs).map
      (fun r => ({ acc with permutation := some r.1 }, r.2))
  else if key = "uniform_shape" then
    (parseArray parseUniformEntry fuel cs).map
      (fun r => ({ acc with uniform_shape := some r.1 }, r.2))
  else
    (skipValue fuel cs).map (fun r => (acc, r))

/-- Parse the members of a non-empty metadata object, closing brace
included, keys in any order, whitespace tolerated around every token. -/
def parseMembers : Nat → TensorMetadata → List Char →
    Option (TensorMetadata × List Char)
  | 0, _, _ => none
  | fuel + 1, acc, cs =>
    match skipWs cs with
    | c :: r =>
      if c = quoteC then
        match parseStringBody r with
        | none => none
        | some (ks, r2) =>
          match skipWs r2 with
          | [] => none
          | c1 :: r3 =>
            if c1 = ':' then
              match parseMemberValue fuel acc ⟨ks⟩ r3 with
              | none => none
              | some (acc2, r4) =>
                match skipWs r4 with
                | [] => none
                | c2 :: r5 =>
                  if c2 = ',' then parseMembers fuel acc2 r5
                  else if c2 = rbrace then some (acc2, r5)
                  else none
            else none
      else none
    | [] => none

/-- Modelled from the spec: `from_json` parses a JSON object holding zero
or more of the three recognized keys in any order, tolerating surrounding
and interior whitespace, ignoring unknown keys, and performing no semantic
validation; `none` is a parse error (non-object input, unbalanced braces
or brackets, unterminated string, trailing garbage). -/
def from_json (s : String) : Option TensorMetadata :=
  let fuel := s.data.length + 1
  match skipWs s.data with
  | c :: r =>
    if c = lbrace then
      match skipWs r with
      | c2 :: r2 =>
        if c2 = rbrace then
          if skipWs r2 = [] then some emptyMeta else none
        else
          match parseMembers fuel emptyMeta (c2 :: r2) with
          | some (m, rest) => if skipWs rest = [] then some m else none
          | none => none
      | [] => none
    else none
  | [] => none

end TensorMetadata

/-! The composite variable-shape tensor array.  Elements are pairs of one
flattened data slice and one shape vector; both child arrays are modelled
per element, and the validity bitmap is explicit. -/

/-- One logical tensor element: its null flag (from the validity bitmap),
its flattened data slice and its shape vector. -/
structure TensorElement where
  is_null : Bool
  data : List Int
  shape : List Int
deriving DecidableEq

/-- Modelled from the spec: `variable_shape_tensor_array` — the declared
axis count, the data child (per-element flattened values), the shape child
(per-element shape vectors), the shared metadata and the validity
bitmap. -/
structure variable_shape_tensor_array where
  declared_ndim : Nat
  data_child : List (List Int)
  shape_child : List (List Int)
  meta : TensorMetadata
  validity : List Bool
deriving DecidableEq

namespace variable_shape_tensor_array

/-- Modelled from the spec: checked construction — the two children and
the validity bitmap (defaulted to all-valid) must share one length, every
shape vector must have the declared `ndim` entries, and a metadata-declared
`ndim` must equal the array's; any violation is a construction error and
no array is produced. -/
def make (ndim : Nat) (dataChild shapeChild : List (List Int))
    (meta : TensorMetadata) (validity : Option (List Bool)) :
    Option variable_shape_tensor_array :=
  let v := validity.getD (List.replicate dataChild.length true)
  if dataChild.length = shapeChild.length
      ∧ v.length = dataChild.length
      ∧ (∀ s ∈ shapeChild, s.length = ndim)
      ∧ (∀ k, meta.get_ndim = some k → k = ndim)
  then some ⟨ndim, dataChild, shapeChild, meta, v⟩
  else none

/-- `size()`: the shared child length. -/
def size (a : variable_shape_tensor_array) : Nat := a.data_child.length

/-- The element at an in-range index: null flag from the validity bitmap,
data slice from the data child, shape vector from the shape child. -/
def element (a : variable_shape_tensor_array) (i : Nat) : TensorElement :=
  ⟨!(a.validity.getD i true), a.data_child.getD i [], a.shape_child.getD i []⟩

/-- Modelled from the spec: `at(index)` is bounds-checked — an index below
`size()` yields the element, any other index is an out-of-range error;
the index is never wrapped or clamped and no sentinel is returned. -/
def at_checked (a : variable_shape_tensor_array) (i : Nat) :
    Option TensorElement :=
  if i < a.size then some (a.element i) else none

/-- Modelled from the spec: the array's structural validity — children and
validity bitmap share one length, shape vectors have `ndim` entries, and
any metadata-declared `ndim` agrees (the operation itself is absent from
the spec's operation list; it recomputes the spec's §3 relationship
invariants). -/
def is_valid (a : variable_shape_tensor_array) : Bool :=
  a.data_child.length == a.shape_child.length
    && a.validity.length == a.data_child.length
    && a.shape_child.all (fun s => s.length == a.declared_ndim)
    && (match a.meta.get_ndim with
        | none => true
        | some k => k == a.declared_ndim)

/-- One forward-iterator step: the iterator state is the next index; at the
end the step yields nothing. -/
def iter_next (a : variable_shape_tensor_array) (s : Nat) :
    Option (TensorElement × Nat) :=
  if s < a.size then some (a.element s, s + 1) else none

/-- Unfold the iterator from a state, collecting the yielded elements; the
fuel bounds the number of steps. -/
def iter_collect (a : variable_shape_tensor_array) :
    Nat → Nat → List TensorElement
  | 0, _ => []
  | fuel + 1, s =>
    match a.iter_next s with
    | none => []
    | some (x, s2) => x :: a.iter_collect fuel s2

/-- The full forward iteration, from `begin()` (state 0) until `end()`. -/
def iterate (a : variable_shape_tensor_array) : List TensorElement :=
  a.iter_collect (a.size + 1) 0

end variable_shape_tensor_array

/-! The JSON-text extension registration table, embedded from
`include/sparrow_extensions/json_array.hpp`. -/

/-- The Arrow base layouts involved in the JSON-text registrations
(`data_type::STRING`, `data_type::LARGE_STRING`,
`data_type::STRING_VIEW`). -/
inductive data_type
  | STRING
  | LARGE_STRING
  | STRING_VIEW
deriving DecidableEq

/-- An opaque raw format-level array handle (`arrow_proxy`). -/
structure arrow_proxy where
  handle : Nat
deriving DecidableEq

/-- The three typed JSON views (`json_array`, `big_json_array`,
`json_view_array`). -/
inductive json_array_kind
  | json_array
  | big_json_array
  | json_view_array
deriving DecidableEq

/-- A constructed typed view over a raw handle
(`array_wrapper_impl<...>(...(std::move(proxy)))`). -/
structure array_wrapper where
  kind : json_array_kind
  proxy : arrow_proxy
deriving DecidableEq

/-- One registry entry: a `(base layout, extension name)` key and the
factory from a raw handle to a typed view. -/
structure registry_entry where
  base : data_type
  extension_name : String
  factory : arrow_proxy → array_wrapper

/-- The extension name shared by the three JSON layouts
(`json_extension = simple_extension<"arrow.json">`). -/
def json_extension_name : String := "arrow.json"

/-- Embedded from `json_array.hpp`, `detail::json_arrays_registered`: the
three `register_extension` calls — `json_array` under `STRING`,
`big_json_array` under `LARGE_STRING`, `json_view_array` under
`STRING_VIEW`, all under the extension name `"arrow.json"`, each factory
wrapping the moved-in proxy in the matching typed view. -/
def json_arrays_registered : List registry_entry :=
  [⟨.STRING, json_extension_name, fun p => ⟨.json_array, p⟩⟩,
   ⟨.LARGE_STRING, json_extension_name, fun p => ⟨.big_json_array, p⟩⟩,
   ⟨.STRING_VIEW, json_extension_name, fun p => ⟨.json_view_array, p⟩⟩]

/-- Registry lookup by the full `(base layout, extension name)` key. -/
def lookup_extension (base : data_type) (nm : String) : Option registry_entry :=
  json_arrays_registered.find?
    (fun e => e.base == base && e.extension_name == nm)

/-! ## Proofs about the metadata validation -/

namespace TensorMetadata

theorem hasDup_eq_true_iff (l : List Int) : hasDup l = true ↔ ¬ l.Nodup := by
  induction l with
  | nil => simp [hasDup]
  | cons x xs ih =>
    simp [hasDup, List.nodup_cons, ih, List.elem_iff, or_iff_not_imp_left]

theorem hasDup_eq_false_iff (l : List Int) : hasDup l = false ↔ l.Nodup := by
  rw [← Bool.not_eq_true, hasDup_eq_true_iff, not_not]

theorem permOk_eq_true_iff (p : List Int) :
    permOk p = true ↔
      p ≠ [] ∧ p.Nodup ∧ ∀ x ∈ p, 0 ≤ x ∧ x < (p.length : Int) := by
  simp only [permOk, Bool.and_eq_true, Bool.not_eq_true', List.all_eq_true,
    decide_eq_true_eq, hasDup_eq_false_iff, List.isEmpty_eq_false]
  tauto

theorem permOk_false_iff (p : List Int) :
    permOk p = false ↔
      p = [] ∨ ¬ p.Nodup ∨ (∃ x ∈ p, x < 0) ∨
        (∃ x ∈ p, (p.length : Int) ≤ x) := by
  rw [← Bool.not_eq_true, permOk_eq_true_iff]
  push_neg
  constructor
  · intro h
    by_cases h0 : p = []
    · exact Or.inl h0
    by_cases h1 : p.Nodup
    · obtain ⟨x, hx, hbad⟩ := h h0 h1
      by_cases hneg : x < 0
      · exact Or.inr (Or.inr (Or.inl ⟨x, hx, hneg⟩))
      · exact Or.inr (Or.inr (Or.inr ⟨x, hx, by omega⟩))
    · exact Or.inr (Or.inl h1)
  · rintro (h | h | ⟨x, hx, h⟩ | ⟨x, hx, h⟩) <;> intro h0 h1
    · exact absurd h h0
    · exact absurd h1 h
    · exact ⟨x, hx, by omega⟩
    · exact ⟨x, hx, by omega⟩

theorem permPartOk_false_iff (m : TensorMetadata) :
    permPartOk m = false ↔
      (∃ p, m.permutation = some p ∧
        (p = [] ∨ ¬ p.Nodup ∨ (∃ x ∈ p, x < 0) ∨
          (∃ x ∈ p, (p.length : Int) ≤ x))) := by
  cases h : m.permutation with
  | none => simp [permPartOk, h]
  | some p => simp [permPartOk, h, permOk_false_iff]

theorem uniformPartOk_false_iff (m : TensorMetadata) :
    uniformPartOk m = false ↔
      (∃ u v, m.uniform_shape = some u ∧ some v ∈ u ∧ v ≤ 0) := by
  cases h : m.uniform_shape with
  | none => simp [uniformPartOk, h]
  | some u =>
    rw [uniformPartOk, h, ← Bool.not_eq_true, List.all_eq_true]
    push_neg
    constructor
    · rintro ⟨o, ho, hbad⟩
      cases o with
      | none => simp [shapeEntryOk] at hbad
      | some v =>
        refine ⟨u, v, rfl, ho, ?_⟩
        simpa [shapeEntryOk, not_lt] using hbad
    · rintro ⟨u', v, hu, hv, hle⟩
      obtain rfl : u = u' := by injection hu
      exact ⟨some v, hv, by simp [shapeEntryOk]; omega⟩

theorem allEqNat_presentLengths_false_iff (m : TensorMetadata) :
    allEqNat m.presentLengths = false ↔
      ((∃ d p, m.dim_names = some d ∧ m.permutation = some p ∧
          d.length ≠ p.length)
        ∨ (∃ d u, m.dim_names = some d ∧ m.uniform_shape = some u ∧
            d.length ≠ u.length)
        ∨ (∃ p u, m.permutation = some p ∧ m.uniform_shape = some u ∧
            p.length ≠ u.length)) := by
  obtain ⟨dn, pm, us⟩ := m
  cases dn <;> cases pm <;> cases us <;>
    simp [presentLengths, allEqNat] <;> omega

/-- C2: `is_valid()` is false exactly when two present fields have
different lengths, or the permutation is present and empty, holds a
duplicate, a negative value, or a value at least `ndim` (its own length,
which is the common `ndim` whenever the lengths agree), or a known
`uniform_shape` entry is non-positive — and true otherwise, in particular
for the all-absent value.  The concrete instances are the spec's own
examples. -/
theorem C2_is_valid_characterization :
    (∀ m : TensorMetadata,
      m.is_valid = false ↔
        ((∃ d p, m.dim_names = some d ∧ m.permutation = some p ∧
            d.length ≠ p.length)
          ∨ (∃ d u, m.dim_names = some d ∧ m.uniform_shape = some u ∧
              d.length ≠ u.length)
          ∨ (∃ p u, m.permutation = some p ∧ m.uniform_shape = some u ∧
              p.length ≠ u.length)
          ∨ (∃ p, m.permutation = some p ∧ p = [])
          ∨ (∃ p, m.permutation = some p ∧ ¬ p.Nodup)
          ∨ (∃ p x, m.permutation = some p ∧ x ∈ p ∧ x < 0)
          ∨ (∃ p x, m.permutation = some p ∧ x ∈ p ∧ (p.length : Int) ≤ x)
          ∨ (∃ u v, m.uniform_shape = some u ∧ some v ∈ u ∧ v ≤ 0)))
    ∧ TensorMetadata.is_valid ⟨none, none, none⟩ = true
    ∧ TensorMetadata.is_valid ⟨none, some [0, 0, 1], none⟩ = false
    ∧ TensorMetadata.is_valid ⟨none, some [0, 1, 3], none⟩ = false
    ∧ TensorMetadata.is_valid ⟨none, none, some [some 400, none, some (-3)]⟩ = false
    ∧ TensorMetadata.is_valid ⟨none, none, some [some 0, none, some 3]⟩ = false := by
  refine ⟨fun m => ?_, by decide, by decide, by decide, by decide, by decide⟩
  have hsplit : m.is_valid = false ↔
      (allEqNat m.presentLengths = false ∨ permPartOk m = false ∨
        uniformPartOk m = false) := by
    rw [is_valid]
    rcases allEqNat m.presentLengths <;> rcases permPartOk m <;>
      rcases uniformPartOk m <;> simp
  rw [hsplit, allEqNat_presentLengths_false_iff, permPartOk_false_iff,
    uniformPartOk_false_iff]
  constructor
  · rintro ((h | h | h) | ⟨p, hp, (h | h | ⟨x, hx, hlt⟩ | ⟨x, hx, hge⟩)⟩ |
      ⟨u, v, hu, hv, hle⟩)
    · exact Or.inl h
    · exact Or.inr (Or.inl h)
    · exact Or.inr (Or.inr (Or.inl h))
    · exact Or.inr (Or.inr (Or.inr (Or.inl ⟨p, hp, h⟩)))
    · exact Or.inr (Or.inr (Or.inr (Or.inr (Or.inl ⟨p, hp, h⟩))))
    · exact Or.inr (Or.inr (Or.inr (Or.inr (Or.inr (Or.inl ⟨p, x, hp, hx, hlt⟩)))))
    · exact Or.inr (Or.inr (Or.inr (Or.inr (Or.inr (Or.inr (Or.inl
        ⟨p, x, hp, hx, hge⟩))))))
    · exact Or.inr (Or.inr (Or.inr (Or.inr (Or.inr (Or.inr (Or.inr
        ⟨u, v, hu, hv, hle⟩))))))
  · rintro (h | h | h | ⟨p, hp, h⟩ | ⟨p, hp, h⟩ | ⟨p, x, hp, hx, h⟩ |
      ⟨p, x, hp, hx, h⟩ | ⟨u, v, hu, hv, h⟩)
    · exact Or.inl (Or.inl h)
    · exact Or.inl (Or.inr (Or.inl h))
    · exact Or.inl (Or.inr (Or.inr h))
    · exact Or.inr (Or.inl ⟨p, hp, Or.inl h⟩)
    · exact Or.inr (Or.inl ⟨p, hp, Or.inr (Or.inl h)⟩)
    · exact Or.inr (Or.inl ⟨p, hp, Or.inr (Or.inr (Or.inl ⟨x, hx, h⟩))⟩)
    · exact Or.inr (Or.inl ⟨p, hp, Or.inr (Or.inr (Or.inr ⟨x, hx, h⟩))⟩)
    · exact Or.inr (Or.inr ⟨u, v, hu, hv, h⟩)

/-- C5: `get_ndim()` returns the length of the first present field in the
priority order `dim_names`, `permutation`, `uniform_shape`, and no value
exactly when all three fields are absent; `dim_names = ["C","H","W"]`
alone gives `ndim = 3`. -/
theorem C5_get_ndim_priority :
    (∀ (m : TensorMetadata) (d : List String), m.dim_names = some d →
        m.get_ndim = some d.length)
    ∧ (∀ (m : TensorMetadata) (p : List Int), m.dim_names = none →
        m.permutation = some p → m.get_ndim = some p.length)
    ∧ (∀ (m : TensorMetadata) (u : List (Option Int)), m.dim_names = none →
        m.permutation = none → m.uniform_shape = some u →
        m.get_ndim = some u.length)
    ∧ (∀ m : TensorMetadata,
        m.get_ndim = none ↔
          m.dim_names = none ∧ m.permutation = none ∧ m.uniform_shape = none)
    ∧ TensorMetadata.get_ndim ⟨some ["C", "H", "W"], none, none⟩ = some 3 := by
  refine ⟨?_, ?_, ?_, fun m => ?_, by decide⟩
  · rintro ⟨dn, pm, us⟩ d h
    cases h
    rfl
  · rintro ⟨dn, pm, us⟩ p h1 h2
    cases h1
    cases h2
    rfl
  · rintro ⟨dn, pm, us⟩ u h1 h2 h3
    cases h1
    cases h2
    cases h3
    rfl
  · obtain ⟨dn, pm, us⟩ := m
    cases dn <;> cases pm <;> cases us <;> simp [get_ndim]

/-- C5 witness: each priority branch of `get_ndim` exercised at the test
suite's inputs. -/
theorem C5_get_ndim_priority_witness :
    TensorMetadata.get_ndim ⟨some ["C", "H", "W"], none, none⟩ = some 3
    ∧ TensorMetadata.get_ndim ⟨none, some [2, 0, 1, 3], none⟩ = some 4
    ∧ TensorMetadata.get_ndim ⟨none, none, some [some 400, none]⟩ = some 2
    ∧ TensorMetadata.get_ndim ⟨none, none, none⟩ = none :=
  ⟨C5_get_ndim_priority.1 ⟨some ["C", "H", "W"], none, none⟩ _ rfl,
   C5_get_ndim_priority.2.1 ⟨none, some [2, 0, 1, 3], none⟩ _ rfl rfl,
   C5_get_ndim_priority.2.2.1 ⟨none, none, some [some 400, none]⟩ _ rfl rfl rfl,
   (C5_get_ndim_priority.2.2.2.1 ⟨none, none, none⟩).mpr ⟨rfl, rfl, rfl⟩⟩

/-- C6: `to_json()` is compact, orders keys as `dim_names`, `permutation`,
`uniform_shape`, omits absent fields, quotes strings, renders unknown
`uniform_shape` entries as the `null` literal, and sends the all-absent
value to the empty object — checked on the test suite's six vectors. -/
theorem C6_to_json_canonical :
    TensorMetadata.to_json ⟨none, none, none⟩ = "\x7b\x7d"
    ∧ TensorMetadata.to_json ⟨some ["C", "H", "W"], none, none⟩ =
        "\x7b\"dim_names\":[\"C\",\"H\",\"W\"]\x7d"
    ∧ TensorMetadata.to_json ⟨none, some [2, 0, 1], none⟩ =
        "\x7b\"permutation\":[2,0,1]\x7d"
    ∧ TensorMetadata.to_json ⟨none, none, some [some 400, none, some 3]⟩ =
        "\x7b\"uniform_shape\":[400,null,3]\x7d"
    ∧ TensorMetadata.to_json ⟨some ["H", "W", "C"], none,
          some [some 400, none, some 3]⟩ =
        "\x7b\"dim_names\":[\"H\",\"W\",\"C\"],\"uniform_shape\":[400,null,3]\x7d"
    ∧ TensorMetadata.to_json ⟨some ["X", "Y", "Z"], some [2, 0, 1],
          some [none, some 10, none]⟩ =
        "\x7b\"dim_names\":[\"X\",\"Y\",\"Z\"],\"permutation\":[2,0,1],\"uniform_shape\":[null,10,null]\x7d" := by
  refine ⟨by decide, by decide, by decide, by decide, by decide, by decide⟩

/-- C7: `from_json` fails on each class of malformed input the claim names
(the spec's own unterminated-array example, a missing closing brace, an
unterminated string, trailing garbage), while well-formed input succeeds
regardless of semantic validity, with whitespace tolerated and unknown
keys ignored. -/
theorem C7_from_json_parse_errors :
    TensorMetadata.from_json "\x7b\"dim_names\":[\"C\",\"H\",\"W\")" = none
    ∧ TensorMetadata.from_json "\x7b\"dim_names\":[\"C\",\"H\",\"W\"]" = none
    ∧ TensorMetadata.from_json "\x7b\"a\":\"unterminated\x7d" = none
    ∧ TensorMetadata.from_json "\x7b\x7d x" = none
    ∧ TensorMetadata.from_json "  \x7b  \"dim_names\"  : [ \"X\" , \"Y\" ]  \x7d  " =
        some ⟨some ["X", "Y"], none, none⟩
    ∧ TensorMetadata.from_json
        "\x7b\"foo\":[1,\"x\",null,\x7b\"a\":true\x7d],\"permutation\":[0]\x7d" =
        some ⟨none, some [0], none⟩
    ∧ TensorMetadata.from_json "\x7b\"permutation\":[]\x7d" =
        some ⟨none, some [], none⟩
    ∧ TensorMetadata.is_valid ⟨none, some [], none⟩ = false := by
  refine ⟨by decide, by decide, by decide, by decide, by decide, by decide,
    by decide, by decide⟩

end TensorMetadata

/-- C9: the JSON-text extension is registered under three distinct
`(base layout, extension name)` keys — `STRING`, `LARGE_STRING` and
`STRING_VIEW` — all carrying the extension name `"arrow.json"`, each key
mapped to a factory producing the matching typed view over the given raw
handle, so dispatch needs the base layout together with the name (the name
alone matches all three entries). -/
theorem C9_json_registration_three_layouts :
    json_arrays_registered.length = 3
    ∧ (json_arrays_registered.map
        (fun e => (e.base, e.extension_name))).Nodup
    ∧ (∀ e ∈ json_arrays_registered, e.extension_name = json_extension_name)
    ∧ (∀ p, (lookup_extension .STRING json_extension_name).map
        (fun e => e.factory p) = some ⟨.json_array, p⟩)
    ∧ (∀ p, (lookup_extension .LARGE_STRING json_extension_name).map
        (fun e => e.factory p) = some ⟨.big_json_array, p⟩)
    ∧ (∀ p, (lookup_extension .STRING_VIEW json_extension_name).map
        (fun e => e.factory p) = some ⟨.json_view_array, p⟩)
    ∧ (json_arrays_registered.filter
        (fun e => e.extension_name == json_extension_name)).length = 3 := by
  refine ⟨rfl, by decide, by decide, fun p => rfl, fun p => rfl, fun p => rfl,
    rfl⟩

/-! ## Proofs about the composite tensor array -/

namespace variable_shape_tensor_array

/-- C3: metadata that declares an `ndim` different from the array's
declared axis count makes construction fail with a construction error, and
a successful construction yields the fully-populated array — never a
half-built one. -/
theorem C3_ndim_mismatch_fails_construction :
    (∀ (ndim : Nat) (dataChild shapeChild : List (List Int))
        (meta : TensorMetadata) (validity : Option (List Bool)) (k : Nat),
        meta.get_ndim = some k → k ≠ ndim →
        make ndim dataChild shapeChild meta validity = none)
    ∧ (∀ (ndim : Nat) (dataChild shapeChild : List (List Int))
        (meta : TensorMetadata) (validity : Option (List Bool))
        (a : variable_shape_tensor_array),
        make ndim dataChild shapeChild meta validity = some a →
        a.declared_ndim = ndim ∧ a.data_child = dataChild ∧
          a.shape_child = shapeChild ∧ a.meta = meta) := by
  constructor
  · intro ndim dc sc meta v k hk hne
    simp only [make]
    rw [if_neg]
    intro hcond
    exact hne (hcond.2.2.2 k hk)
  · intro ndim dc sc meta v a h
    simp only [make] at h
    split at h
    · injection h with h
      subst h
      exact ⟨rfl, rfl, rfl, rfl⟩
    · simp at h

/-- C3 witness: a metadata value declaring `ndim = 2` rejected by a
3-axis construction, and a consistent construction returning the full
array. -/
theorem C3_ndim_mismatch_fails_construction_witness :
    make 3 [[1, 2, 3]] [[1, 3]] ⟨some ["H", "W"], none, none⟩ none = none
    ∧ ((⟨1, [[1, 2]], [[2]], ⟨none, none, none⟩, [true]⟩ :
          variable_shape_tensor_array).declared_ndim = 1
        ∧ (⟨1, [[1, 2]], [[2]], ⟨none, none, none⟩, [true]⟩ :
          variable_shape_tensor_array).data_child = [[1, 2]]
        ∧ (⟨1, [[1, 2]], [[2]], ⟨none, none, none⟩, [true]⟩ :
          variable_shape_tensor_array).shape_child = [[2]]
        ∧ (⟨1, [[1, 2]], [[2]], ⟨none, none, none⟩, [true]⟩ :
          variable_shape_tensor_array).meta = ⟨none, none, none⟩) :=
  ⟨C3_ndim_mismatch_fails_construction.1 3 [[1, 2, 3]] [[1, 3]]
      ⟨some ["H", "W"], none, none⟩ none 2 rfl (by decide),
   C3_ndim_mismatch_fails_construction.2 1 [[1, 2]] [[2]] ⟨none, none, none⟩
      none ⟨1, [[1, 2]], [[2]], ⟨none, none, none⟩, [true]⟩ (by decide)⟩

/-- C4: `at` is bounds-checked — it fails exactly on indices at or beyond
`size()` and succeeds with the indexed element exactly below `size()`,
never wrapping, clamping or producing a sentinel; on the test suite's
3-element array both `at(3)` and `at(10)` fail while `at(0)`, `at(1)`,
`at(2)` succeed. -/
theorem C4_at_bounds_checked :
    (∀ (a : variable_shape_tensor_array) (i : Nat),
        a.at_checked i = none ↔ a.size ≤ i)
    ∧ (∀ (a : variable_shape_tensor_array) (i : Nat),
        a.at_checked i = some (a.element i) ↔ i < a.size)
    ∧ (make 1 [[1, 2], [3, 4], [5, 6]] [[2], [2], [2]] ⟨none, none, none⟩
          none).map
        (fun a => ((a.at_checked 3).isNone, (a.at_checked 10).isNone,
          (a.at_checked 0).isSome, (a.at_checked 1).isSome,
          (a.at_checked 2).isSome)) =
      some (true, true, true, true, true) := by
  refine ⟨fun a i => ?_, fun a i => ?_, by decide⟩
  · rcases Nat.lt_or_ge i a.size with h | h
    · simp [at_checked, h]
    · simp [at_checked, h]
  · rcases Nat.lt_or_ge i a.size with h | h
    · simp [at_checked, h]
    · simp [at_checked, h]

/-- C10: every consistently-constructed array — equal child element
counts, shape vectors of the declared length, metadata `ndim` agreement —
satisfies the `is_valid()` query (an operation the spec's operation list
omits; here it recomputes the spec's relationship invariants), including
with metadata fields such as `dim_names` present. -/
theorem C10_construction_implies_valid :
    (∀ (ndim : Nat) (dataChild shapeChild : List (List Int))
        (meta : TensorMetadata) (validity : Option (List Bool))
        (a : variable_shape_tensor_array),
        make ndim dataChild shapeChild meta validity = some a →
        a.is_valid = true)
    ∧ (make 2 [[1, 2, 3]] [[1, 3]] ⟨some ["H", "W"], none, none⟩ none).map
        is_valid = some true := by
  constructor
  · intro ndim dc sc meta v a h
    simp only [make] at h
    split at h
    case isTrue hcond =>
      obtain ⟨h1, h2, h3, h4⟩ := hcond
      injection h with h
      subst h
      simp only [is_valid, Bool.and_eq_true, beq_iff_eq, List.all_eq_true]
      refine ⟨⟨⟨h1, h2⟩, fun s hs => by simpa using h3 s hs⟩, ?_⟩
      cases hnd : TensorMetadata.get_ndim meta with
      | none => rfl
      | some k => simpa using h4 k hnd
    case isFalse => simp at h
  · decide

/-- C10 witness: the test suite's consistent 2-axis construction with
`dim_names = ["H","W"]` yields a structurally valid array. -/
theorem C10_construction_implies_valid_witness :
    is_valid ⟨2, [[1, 2, 3]], [[1, 3]], ⟨some ["H", "W"], none, none⟩,
      [true]⟩ = true :=
  C10_construction_implies_valid.1 2 [[1, 2, 3]] [[1, 3]]
    ⟨some ["H", "W"], none, none⟩ none
    ⟨2, [[1, 2, 3]], [[1, 3]], ⟨some ["H", "W"], none, none⟩, [true]⟩
    (by decide)

theorem iter_collect_spec (a : variable_shape_tensor_array) :
    ∀ (fuel s : Nat), a.size ≤ s + fuel →
      a.iter_collect fuel s =
        (List.range (a.size - s)).map (fun j => a.element (s + j)) := by
  intro fuel
  induction fuel with
  | zero =>
    intro s h
    have h0 : a.size - s = 0 := by omega
    simp [iter_collect, h0]
  | succ f ih =>
    intro s h
    by_cases hs : s < a.size
    · have hrange : a.size - s = (a.size - (s + 1)) + 1 := by omega
      have hshift : ∀ j : Nat, a.element (s + (j + 1)) = a.element (s + 1 + j) :=
        fun j => by rw [show s + (j + 1) = s + 1 + j by omega]
      rw [iter_collect]
      simp only [iter_next, hs, if_pos]
      rw [ih (s + 1) (by omega), hrange, List.range_succ_eq_map]
      simp [List.map_map, Function.comp, hshift]
    · have h0 : a.size - s = 0 := by omega
      rw [iter_collect]
      simp [iter_next, hs, h0]

theorem iterate_eq_map_range (a : variable_shape_tensor_array) :
    a.iterate = (List.range a.size).map a.element := by
  rw [iterate, iter_collect_spec a (a.size + 1) 0 (by omega)]
  simp

/-- C8: forward iteration yields exactly `size()` elements in index order —
the distance from begin to end equals `size()` — and the i-th iterated
element agrees with `at(i)` for every index (both are absent past the
end); the iteration is a pure restartable unfolding from index 0, so
independent iterators observe the same sequence. -/
theorem C8_iteration_matches_at :
    (∀ a : variable_shape_tensor_array, a.iterate.length = a.size)
    ∧ (∀ (a : variable_shape_tensor_array) (i : Nat),
        a.iterate[i]? = a.at_checked i)
    ∧ (make 1 [[1, 2], [3, 4], [5, 6]] [[2], [2], [2]] ⟨none, none, none⟩
          none).map (fun a => a.iterate.length) = some 3 := by
  refine ⟨fun a => ?_, fun a i => ?_, by decide⟩
  · simp [iterate_eq_map_range]
  · rw [iterate_eq_map_range]
    by_cases h : i < a.size
    · simp [at_checked, h, List.getElem?_map, List.getElem?_range]
    · simp [at_checked, h, List.getElem?_map, List.getElem?_range]
      omega

end variable_shape_tensor_array

/-! ## Round-trip: serialization followed by parsing is the identity.

The lemmas follow the printer's structure: each parser consumes exactly the
text its renderer produced and leaves the suffix untouched. -/

theorem isWsChar_eq_false_of_digit {c : Char} (h : isDigitChar c = true) :
    isWsChar c = false := by
  simp only [isDigitChar, Bool.and_eq_true, decide_eq_true_eq] at h
  simp only [isWsChar, Bool.or_eq_false_iff, beq_eq_false_iff_ne, ne_eq]
  refine ⟨⟨⟨?_, ?_⟩, ?_⟩, ?_⟩ <;> intro hc <;> subst hc <;>
    exact absurd h (by decide)

theorem ne_of_digit {c : Char} (h : isDigitChar c = true) (d : Char)
    (hd : isDigitChar d = false) : c ≠ d := by
  intro e
  subst e
  rw [h] at hd
  cases hd

theorem skipWs_cons_of_not_ws {c : Char} (h : isWsChar c = false)
    (r : List Char) : skipWs (c :: r) = c :: r := by
  simp [skipWs, h]

theorem parseStringBody_cons (c : Char) (cs : List Char) :
    parseStringBody (c :: cs) =
      if c = quoteC then some ([], cs)
      else if c = backslashC then
        match cs with
        | [] => none
        | d :: ds => (parseStringBody ds).map (fun r => (d :: r.1, r.2))
      else (parseStringBody cs).map (fun r => (c :: r.1, r.2)) := by
  rw [parseStringBody.eq_def]

theorem parseStringBody_escape (l : List Char) (rest : List Char) :
    parseStringBody ((l.map escapeChar).flatten ++ quoteC :: rest) =
      some (l, rest) := by
  induction l with
  | nil => simp [parseStringBody_cons]
  | cons c cs ih =>
    by_cases hc : c = quoteC ∨ c = backslashC
    · have he : escapeChar c = [backslashC, c] := by
        rcases hc with hc | hc <;> simp [escapeChar, hc]
      simp only [List.map_cons, List.flatten_cons, he, List.cons_append,
        List.append_assoc]
      rw [parseStringBody_cons, if_neg (by decide), if_pos rfl]
      simp [parseStringBody_cons, ih]
    · push_neg at hc
      have he : escapeChar c = [c] := by simp [escapeChar, hc.1, hc.2]
      simp only [List.map_cons, List.flatten_cons, he, List.cons_append,
        List.append_assoc]
      rw [parseStringBody_cons, if_neg hc.1, if_neg hc.2]
      simp [ih]

theorem parseStringBody_plain (ks : List Char)
    (h : ∀ c ∈ ks, c ≠ quoteC ∧ c ≠ backslashC) (r : List Char) :
    parseStringBody (ks ++ quoteC :: r) = some (ks, r) := by
  induction ks with
  | nil => simp [parseStringBody_cons]
  | cons c cs ih =>
    have hc := h c (by simp)
    simp only [List.cons_append]
    rw [parseStringBody_cons, if_neg hc.1, if_neg hc.2]
    rw [ih (fun x hx => h x (by simp [hx]))]
    rfl

theorem parseJsonString_render (s : String) (rest : List Char) :
    parseJsonString (jsonStringChars s ++ rest) = some (s, rest) := by
  have hshape : jsonStringChars s ++ rest =
      quoteC :: ((s.data.map escapeChar).flatten ++ quoteC :: rest) := by
    simp [jsonStringChars, escapeString]
  rw [hshape, parseJsonString, if_pos rfl, parseStringBody_escape]
  rfl

theorem digitChar_toNat {d : Nat} (h : d < 10) : (digitChar d).toNat = 48 + d := by
  interval_cases d <;> decide

theorem isDigitChar_digitChar {d : Nat} (h : d < 10) :
    isDigitChar (digitChar d) = true := by
  interval_cases d <;> decide

theorem natCharsAux_eq (n : Nat) :
    ∀ (fuel : Nat) (acc : List Char), n < fuel →
      natCharsAux fuel n acc = natChars n ++ acc := by
  induction n using Nat.strong_induction_on with
  | _ n ih =>
    intro fuel acc h
    obtain ⟨f, rfl⟩ : ∃ f, fuel = f + 1 := ⟨fuel - 1, by omega⟩
    by_cases h10 : n < 10
    · rw [natCharsAux, if_pos h10, natChars, natCharsAux, if_pos h10]
      rfl
    · have hdiv : n / 10 < n := Nat.div_lt_self (by omega) (by omega)
      rw [natCharsAux, if_neg h10, natChars, natCharsAux, if_neg h10]
      rw [ih (n / 10) hdiv f (digitChar (n % 10) :: acc) (by omega)]
      rw [ih (n / 10) hdiv n [digitChar (n % 10)] (by omega)]
      simp

theorem natChars_lt {n : Nat} (h : n < 10) : natChars n = [digitChar n] := by
  rw [natChars, natCharsAux, if_pos h]

theorem natChars_ge {n : Nat} (h : 10 ≤ n) :
    natChars n = natChars (n / 10) ++ [digitChar (n % 10)] := by
  rw [natChars, natCharsAux, if_neg (by omega)]
  exact natCharsAux_eq (n / 10) n [digitChar (n % 10)]
    (Nat.div_lt_self (by omega) (by omega))

theorem natChars_ne_nil (n : Nat) : natChars n ≠ [] := by
  by_cases h : n < 10
  · simp [natChars_lt h]
  · simp [natChars_ge (by omega : 10 ≤ n)]

theorem natChars_all_digit (n : Nat) :
    ∀ c ∈ natChars n, isDigitChar c = true := by
  induction n using Nat.strong_induction_on with
  | _ n ih =>
    by_cases h : n < 10
    · rw [natChars_lt h]
      intro c hc
      rw [List.mem_singleton] at hc
      subst hc
      exact isDigitChar_digitChar h
    · rw [natChars_ge (by omega : 10 ≤ n)]
      intro c hc
      rcases List.mem_append.mp hc with hc | hc
      · exact ih (n / 10) (Nat.div_lt_self (by omega) (by omega)) c hc
      · rw [List.mem_singleton] at hc
        subst hc
        exact isDigitChar_digitChar (Nat.mod_lt n (by omega))

theorem parseDigits_append (ds : List Char)
    (hds : ∀ c ∈ ds, isDigitChar c = true) (rest : List Char)
    (hrest : ∀ c, rest.head? = some c → isDigitChar c = false) :
    ∀ acc : Nat,
      parseDigits acc (ds ++ rest) =
        (ds.foldl (fun a c => a * 10 + (c.toNat - 48)) acc, rest) := by
  induction ds with
  | nil =>
    intro acc
    cases rest with
    | nil => simp [parseDigits]
    | cons c cs => simp [parseDigits, hrest c rfl]
  | cons d ds ih =>
    intro acc
    have hd := hds d (by simp)
    simp only [List.cons_append]
    rw [parseDigits, if_pos hd]
    rw [ih (fun c hc => hds c (by simp [hc]))]
    rfl

theorem foldl_natChars (n : Nat) :
    ∀ acc : Nat,
      (natChars n).foldl (fun a c => a * 10 + (c.toNat - 48)) acc =
        acc * 10 ^ (natChars n).length + n := by
  induction n using Nat.strong_induction_on with
  | _ n ih =>
    intro acc
    by_cases h : n < 10
    · rw [natChars_lt h]
      simp [digitChar_toNat h]
    · rw [natChars_ge (by omega : 10 ≤ n)]
      rw [List.foldl_append]
      rw [ih (n / 10) (Nat.div_lt_self (by omega) (by omega)) acc]
      have hmod : (digitChar (n % 10)).toNat - 48 = n % 10 := by
        rw [digitChar_toNat (Nat.mod_lt n (by omega))]
        omega
      have hdm : n / 10 * 10 + n % 10 = n := by omega
      simp only [List.foldl_cons, List.foldl_nil, List.length_append,
        List.length_singleton, hmod]
      calc (acc * 10 ^ (natChars (n / 10)).length + n / 10) * 10 + n % 10
          = acc * (10 ^ (natChars (n / 10)).length * 10) +
              (n / 10 * 10 + n % 10) := by ring
        _ = acc * 10 ^ ((natChars (n / 10)).length + 1) + n := by
              rw [hdm, pow_succ]

theorem parseNat_natChars (n : Nat) (rest : List Char)
    (hrest : ∀ c, rest.head? = some c → isDigitChar c = false) :
    parseNat (natChars n ++ rest) = some (n, rest) := by
  obtain ⟨c, cs, hcons⟩ : ∃ c cs, natChars n = c :: cs := by
    cases h : natChars n with
    | nil => exact absurd h (natChars_ne_nil n)
    | cons c cs => exact ⟨c, cs, rfl⟩
  have hc : isDigitChar c = true :=
    natChars_all_digit n c (by rw [hcons]; simp)
  rw [hcons, List.cons_append, parseNat, if_pos hc]
  rw [show c :: (cs ++ rest) = natChars n ++ rest by rw [hcons, List.cons_append]]
  rw [parseDigits_append (natChars n) (natChars_all_digit n) rest hrest 0]
  rw [foldl_natChars]
  simp

theorem parseInt_intChars (i : Int) (rest : List Char)
    (hrest : ∀ c, rest.head? = some c → isDigitChar c = false) :
    parseInt (intChars i ++ rest) = some (i, rest) := by
  by_cases hneg : i < 0
  · rw [intChars, if_pos hneg, List.cons_append, parseInt, if_pos rfl]
    rw [parseNat_natChars i.natAbs rest hrest]
    show some (-(i.natAbs : Int), rest) = some (i, rest)
    rw [show -(i.natAbs : Int) = i by omega]
  · rw [intChars, if_neg hneg]
    obtain ⟨c, cs, hcons⟩ : ∃ c cs, natChars i.toNat = c :: cs := by
      cases h : natChars i.toNat with
      | nil => exact absurd h (natChars_ne_nil _)
      | cons c cs => exact ⟨c, cs, rfl⟩
    have hc : isDigitChar c = true :=
      natChars_all_digit _ c (by rw [hcons]; simp)
    have hcm : c ≠ '-' := ne_of_digit hc '-' (by decide)
    rw [hcons, List.cons_append, parseInt, if_neg hcm]
    rw [show c :: (cs ++ rest) = natChars i.toNat ++ rest by
      rw [hcons, List.cons_append]]
    rw [parseNat_natChars i.toNat rest hrest]
    show some ((i.toNat : Int), rest) = some (i, rest)
    rw [show (i.toNat : Int) = i by omega]

theorem intChars_head_spec (i : Int) :
    ∃ c cs, intChars i = c :: cs ∧ (c = '-' ∨ isDigitChar c = true) := by
  by_cases hneg : i < 0
  · exact ⟨'-', natChars i.natAbs, by rw [intChars, if_pos hneg], Or.inl rfl⟩
  · obtain ⟨c, cs, hcons⟩ : ∃ c cs, natChars i.toNat = c :: cs := by
      cases h : natChars i.toNat with
      | nil => exact absurd h (natChars_ne_nil _)
      | cons c cs => exact ⟨c, cs, rfl⟩
    refine ⟨c, cs, by rw [intChars, if_neg hneg, hcons], Or.inr ?_⟩
    exact natChars_all_digit _ c (by rw [hcons]; simp)

theorem parseUniformEntry_render (o : Option Int) (rest : List Char)
    (hrest : ∀ c, rest.head? = some c → isDigitChar c = false) :
    parseUniformEntry (uniformEntryChars o ++ rest) = some (o, rest) := by
  cases o with
  | none =>
    rw [uniformEntryChars]
    rw [parseUniformEntry, if_pos (by simp [List.take])]
    simp [List.drop]
  | some v =>
    obtain ⟨c, cs, hcons, hc⟩ := intChars_head_spec v
    have hcn : c ≠ 'n' := by
      rcases hc with hc | hc
      · subst hc; decide
      · exact ne_of_digit hc 'n' (by decide)
    rw [uniformEntryChars, parseUniformEntry, if_neg ?hne]
    case hne =>
      rw [hcons, List.cons_append]
      intro htake
      have : c = 'n' := by
        have := congrArg List.head? htake
        simpa [List.take] using this
      exact hcn this
    rw [parseInt_intChars v rest hrest]
    rfl

theorem sepByComma_cons_exists (l : List Char) (ls : List (List Char)) :
    ∃ t, sepByComma (l :: ls) = l ++ t := by
  cases ls with
  | nil => exact ⟨[], by simp [sepByComma]⟩
  | cons y ys => exact ⟨',' :: sepByComma (y :: ys), rfl⟩

theorem sepByComma_length_ge (ls : List (List Char))
    (h : ∀ l ∈ ls, l ≠ []) : ls.length ≤ (sepByComma ls).length := by
  induction ls with
  | nil => simp [sepByComma]
  | cons x xs ih =>
    have h1 : 1 ≤ x.length := by
      cases hx : x with
      | nil => exact absurd hx (h x (by simp))
      | cons c cs => simp
    cases xs with
    | nil => simpa [sepByComma] using h1
    | cons y ys =>
      have h2 := ih (fun l hl => h l (List.mem_cons_of_mem x hl))
      have hlen : (sepByComma (x :: y :: ys)).length =
          x.length + 1 + (sepByComma (y :: ys)).length := by
        simp [sepByComma]
        omega
      simp only [List.length_cons] at h2 ⊢
      omega

theorem parseElems_render {α : Type} (pe : List Char → Option (α × List Char))
    (render : α → List Char)
    (Hpe : ∀ (x : α) (r : List Char),
      (r.head? = some ',' ∨ r.head? = some ']') →
      pe (render x ++ r) = some (x, r))
    (Hhead : ∀ x : α, ∃ c cs,
      render x = c :: cs ∧ isWsChar c = false ∧ c ≠ ']') :
    ∀ (xs : List α) (fuel : Nat) (rest : List Char), xs ≠ [] →
      xs.length ≤ fuel →
      parseElems pe fuel (sepByComma (xs.map render) ++ ']' :: rest) =
        some (xs, rest) := by
  intro xs
  induction xs with
  | nil => intro fuel rest h _; exact absurd rfl h
  | cons x xs ih =>
    intro fuel rest _ hlen
    obtain ⟨f, rfl⟩ : ∃ f, fuel = f + 1 :=
      ⟨fuel - 1, by simp at hlen; omega⟩
    obtain ⟨c, cs, hrx, hws, _⟩ := Hhead x
    have hskipx : ∀ t : List Char, skipWs (render x ++ t) = render x ++ t := by
      intro t
      rw [hrx, List.cons_append]
      exact skipWs_cons_of_not_ws hws _
    cases xs with
    | nil =>
      have hsep : sepByComma ([x].map render) = render x := by
        simp [sepByComma]
      have hpe1 := Hpe x (']' :: rest) (Or.inr rfl)
      have hsk2 : skipWs (']' :: rest) = ']' :: rest :=
        skipWs_cons_of_not_ws (by decide) rest
      rw [hsep]
      simp only [parseElems, hskipx, hpe1]
      simp [hsk2]
    | cons y ys =>
      have hsep : sepByComma ((x :: y :: ys).map render) =
          render x ++ ',' :: sepByComma ((y :: ys).map render) := rfl
      have hassoc : (render x ++ ',' :: sepByComma ((y :: ys).map render))
            ++ ']' :: rest =
          render x ++
            ',' :: (sepByComma ((y :: ys).map render) ++ ']' :: rest) := by
        simp
      have hpe1 := Hpe x
        (',' :: (sepByComma ((y :: ys).map render) ++ ']' :: rest))
        (Or.inl rfl)
      have hsk2 :
          skipWs (',' :: (sepByComma ((y :: ys).map render) ++ ']' :: rest)) =
            ',' :: (sepByComma ((y :: ys).map render) ++ ']' :: rest) :=
        skipWs_cons_of_not_ws (by decide) _
      rw [hsep, hassoc]
      simp only [parseElems, hskipx, hpe1]
      simp only [hsk2]
      rw [ih f rest (by simp) (by simp at hlen ⊢; omega)]
      simp

theorem parseArray_render {α : Type} (pe : List Char → Option (α × List Char))
    (render : α → List Char)
    (Hpe : ∀ (x : α) (r : List Char),
      (r.head? = some ',' ∨ r.head? = some ']') →
      pe (render x ++ r) = some (x, r))
    (Hhead : ∀ x : α, ∃ c cs,
      render x = c :: cs ∧ isWsChar c = false ∧ c ≠ ']') :
    ∀ (xs : List α) (fuel : Nat) (rest : List Char), xs.length ≤ fuel →
      parseArray pe fuel (arrayChars (xs.map render) ++ rest) =
        some (xs, rest) := by
  intro xs fuel rest hlen
  have hshape : arrayChars (xs.map render) ++ rest =
      '[' :: (sepByComma (xs.map render) ++ ']' :: rest) := by
    simp [arrayChars]
  have hsk1 : skipWs ('[' :: (sepByComma (xs.map render) ++ ']' :: rest)) =
      '[' :: (sepByComma (xs.map render) ++ ']' :: rest) :=
    skipWs_cons_of_not_ws (by decide) _
  cases xs with
  | nil =>
    have hshape2 : arrayChars (([] : List α).map render) ++ rest =
        '[' :: ']' :: rest := by
      simp [arrayChars, sepByComma]
    have hska : skipWs ('[' :: ']' :: rest) = '[' :: ']' :: rest :=
      skipWs_cons_of_not_ws (by decide) _
    have hskb : skipWs (']' :: rest) = ']' :: rest :=
      skipWs_cons_of_not_ws (by decide) _
    rw [hshape2]
    simp only [parseArray, hska, hskb]
    simp
  | cons x xs =>
    obtain ⟨c, cs, hrx, hws, hnb⟩ := Hhead x
    obtain ⟨t, hsept⟩ := sepByComma_cons_exists (render x) (xs.map render)
    have hsep2 : sepByComma ((x :: xs).map render) = render x ++ t := by
      simpa using hsept
    have hform : sepByComma ((x :: xs).map render) ++ ']' :: rest =
        c :: (cs ++ (t ++ ']' :: rest)) := by
      rw [hsep2, hrx]
      simp
    have hsk2 : skipWs (c :: (cs ++ (t ++ ']' :: rest))) =
        c :: (cs ++ (t ++ ']' :: rest)) :=
      skipWs_cons_of_not_ws hws _
    have hsk1b : skipWs ('[' :: c :: (cs ++ (t ++ ']' :: rest))) =
        '[' :: c :: (cs ++ (t ++ ']' :: rest)) :=
      skipWs_cons_of_not_ws (by decide) _
    rw [hshape, hform]
    simp only [parseArray, hsk1b, hsk2]
    rw [if_pos trivial, if_neg hnb, ← hform]
    exact parseElems_render pe render Hpe Hhead (x :: xs) fuel rest
      (by simp) hlen

theorem head_not_digit_of_sep {r : List Char}
    (hr : r.head? = some ',' ∨ r.head? = some ']') :
    ∀ c, r.head? = some c → isDigitChar c = false := by
  intro c hc
  rcases hr with h | h
  · have : c = ',' := by
      have := hc.symm.trans h
      injection this
    subst this
    decide
  · have : c = ']' := by
      have := hc.symm.trans h
      injection this
    subst this
    decide

theorem intChars_head_props (i : Int) :
    ∃ c cs, intChars i = c :: cs ∧ isWsChar c = false ∧ c ≠ ']' ∧ c ≠ 'n' := by
  obtain ⟨c, cs, hcons, hc⟩ := intChars_head_spec i
  rcases hc with hc | hc
  · subst hc
    exact ⟨'-', cs, hcons, by decide, by decide, by decide⟩
  · exact ⟨c, cs, hcons, isWsChar_eq_false_of_digit hc,
      ne_of_digit hc ']' (by decide), ne_of_digit hc 'n' (by decide)⟩

theorem parseArray_strings (d : List String) (fuel : Nat) (rest : List Char)
    (h : d.length ≤ fuel) :
    parseArray parseJsonString fuel
        (arrayChars (d.map jsonStringChars) ++ rest) =
      some (d, rest) :=
  parseArray_render parseJsonString jsonStringChars
    (fun x r _ => parseJsonString_render x r)
    (fun x => ⟨quoteC, escapeString x ++ [quoteC], rfl, by decide, by decide⟩)
    d fuel rest h

theorem parseArray_ints (p : List Int) (fuel : Nat) (rest : List Char)
    (h : p.length ≤ fuel) :
    parseArray parseInt fuel (arrayChars (p.map intChars) ++ rest) =
      some (p, rest) :=
  parseArray_render parseInt intChars
    (fun x r hr => parseInt_intChars x r (head_not_digit_of_sep hr))
    (fun x => by
      obtain ⟨c, cs, hcons, hws, hnb, _⟩ := intChars_head_props x
      exact ⟨c, cs, hcons, hws, hnb⟩)
    p fuel rest h

theorem parseArray_uniform (u : List (Option Int)) (fuel : Nat)
    (rest : List Char) (h : u.length ≤ fuel) :
    parseArray parseUniformEntry fuel
        (arrayChars (u.map uniformEntryChars) ++ rest) =
      some (u, rest) :=
  parseArray_render parseUniformEntry uniformEntryChars
    (fun x r hr => parseUniformEntry_render x r (head_not_digit_of_sep hr))
    (fun x => by
      cases x with
      | none => exact ⟨'n', ['u', 'l', 'l'], rfl, by decide, by decide⟩
      | some v =>
        obtain ⟨c, cs, hcons, hws, hnb, _⟩ := intChars_head_props v
        exact ⟨c, cs, by rw [uniformEntryChars, hcons], hws, hnb⟩)
    u fuel rest h

theorem parseMemberValue_dim (fuel : Nat) (acc : TensorMetadata)
    (d : List String) (rest : List Char) (h : d.length ≤ fuel) :
    TensorMetadata.parseMemberValue fuel acc "dim_names"
        (arrayChars (d.map jsonStringChars) ++ rest) =
      some ({ acc with dim_names := some d }, rest) := by
  rw [TensorMetadata.parseMemberValue, if_pos rfl,
    parseArray_strings d fuel rest h]
  rfl

theorem parseMemberValue_perm (fuel : Nat) (acc : TensorMetadata)
    (p : List Int) (rest : List Char) (h : p.length ≤ fuel) :
    TensorMetadata.parseMemberValue fuel acc "permutation"
        (arrayChars (p.map intChars) ++ rest) =
      some ({ acc with permutation := some p }, rest) := by
  rw [TensorMetadata.parseMemberValue, if_neg (by decide), if_pos rfl,
    parseArray_ints p fuel rest h]
  rfl

theorem parseMemberValue_uniform (fuel : Nat) (acc : TensorMetadata)
    (u : List (Option Int)) (rest : List Char) (h : u.length ≤ fuel) :
    TensorMetadata.parseMemberValue fuel acc "uniform_shape"
        (arrayChars (u.map uniformEntryChars) ++ rest) =
      some ({ acc with uniform_shape := some u }, rest) := by
  rw [TensorMetadata.parseMemberValue, if_neg (by decide), if_neg (by decide),
    if_pos rfl, parseArray_uniform u fuel rest h]
  rfl

theorem parseMembers_step (fuel : Nat) (acc acc2 : TensorMetadata)
    (key : String) (hkey : ∀ c ∈ key.data, c ≠ quoteC ∧ c ≠ backslashC)
    (val T : List Char)
    (hval : TensorMetadata.parseMemberValue fuel acc key (val ++ T) =
      some (acc2, T)) (c2 : Char) (t2 : List Char) (hT : T = c2 :: t2)
    (hc2 : isWsChar c2 = false) :
    TensorMetadata.parseMembers (fuel + 1) acc (memberChars key val ++ T) =
      (if c2 = ',' then TensorMetadata.parseMembers fuel acc2 t2
       else if c2 = rbrace then some (acc2, t2)
       else none) := by
  subst hT
  have hshape : memberChars key val ++ (c2 :: t2) =
      quoteC :: (key.data ++ quoteC :: ':' :: (val ++ c2 :: t2)) := by
    simp [memberChars]
  have hsk1 : skipWs (quoteC :: (key.data ++ quoteC :: ':' :: (val ++ c2 :: t2))) =
      quoteC :: (key.data ++ quoteC :: ':' :: (val ++ c2 :: t2)) :=
    skipWs_cons_of_not_ws (by decide) _
  have hpsb : parseStringBody
      (key.data ++ quoteC :: (':' :: (val ++ c2 :: t2))) =
      some (key.data, ':' :: (val ++ c2 :: t2)) :=
    parseStringBody_plain key.data hkey _
  have hsk2 : skipWs (':' :: (val ++ c2 :: t2)) = ':' :: (val ++ c2 :: t2) :=
    skipWs_cons_of_not_ws (by decide) _
  have hmk : (⟨key.data⟩ : String) = key := rfl
  have hsk3 : skipWs (c2 :: t2) = c2 :: t2 := skipWs_cons_of_not_ws hc2 _
  rw [hshape]
  simp only [TensorMetadata.parseMembers, hsk1, hpsb, hsk2, hmk, hval, hsk3]
  simp only [if_pos trivial]

theorem jsonStringChars_ne_nil (x : String) : jsonStringChars x ≠ [] := by
  simp [jsonStringChars]

theorem intChars_ne_nil (i : Int) : intChars i ≠ [] := by
  obtain ⟨c, cs, hcons, _⟩ := intChars_head_spec i
  simp [hcons]

theorem uniformEntryChars_ne_nil (o : Option Int) :
    uniformEntryChars o ≠ [] := by
  cases o with
  | none => simp [uniformEntryChars]
  | some v =>
    rw [uniformEntryChars]
    exact intChars_ne_nil v

theorem length_le_member {α : Type} (key : String) (render : α → List Char)
    (hne : ∀ x, render x ≠ []) (xs : List α) :
    xs.length + 2 ≤ (memberChars key (arrayChars (xs.map render))).length := by
  have h1 : xs.length ≤ (sepByComma (xs.map render)).length := by
    have h2 := sepByComma_length_ge (xs.map render) (by
      intro l hl
      obtain ⟨x, _, rfl⟩ := List.mem_map.mp hl
      exact hne x)
    simpa using h2
  simp [memberChars, arrayChars]
  omega

theorem from_json_members (s : String) (S : List Char) (m' : TensorMetadata)
    (hdata : s.data = lbrace :: (S ++ [rbrace]))
    (hhead : ∃ t, S = quoteC :: t)
    (hparse : TensorMetadata.parseMembers (s.data.length + 1)
        TensorMetadata.emptyMeta (S ++ [rbrace]) = some (m', [])) :
    TensorMetadata.from_json s = some m' := by
  obtain ⟨t, rfl⟩ := hhead
  rw [hdata] at hparse
  rw [List.cons_append] at hparse
  have hsk1 : skipWs (lbrace :: (quoteC :: (t ++ [rbrace]))) =
      lbrace :: (quoteC :: (t ++ [rbrace])) :=
    skipWs_cons_of_not_ws (by decide) _
  have hsk2 : skipWs (quoteC :: (t ++ [rbrace])) =
      quoteC :: (t ++ [rbrace]) :=
    skipWs_cons_of_not_ws (by decide) _
  have hqr : ¬ (quoteC = rbrace) := by decide
  simp only [TensorMetadata.from_json, hdata, List.cons_append, hsk1, hsk2,
    if_neg hqr, hparse]
  simp [skipWs]

namespace TensorMetadata

theorem from_json_to_json_dim_only (d : List String) :
    from_json (to_json ⟨some d, none, none⟩) = some ⟨some d, none, none⟩ := by
  have hdata : (to_json ⟨some d, none, none⟩).data =
      lbrace :: (memberChars "dim_names" (arrayChars (d.map jsonStringChars))
        ++ [rbrace]) := by
    simp [to_json, metadataMembers, sepByComma]
  have hlen : (to_json ⟨some d, none, none⟩).data.length =
      (memberChars "dim_names" (arrayChars (d.map jsonStringChars))).length
        + 2 := by
    rw [hdata]
    simp
  have hbound := length_le_member "dim_names" jsonStringChars
    jsonStringChars_ne_nil d
  refine from_json_members _ _ _ hdata ⟨_, rfl⟩ ?_
  have hstep : ∀ f : Nat, d.length ≤ f →
      parseMembers (f + 1) emptyMeta
        (memberChars "dim_names" (arrayChars (d.map jsonStringChars))
          ++ [rbrace]) =
      some (⟨some d, none, none⟩, []) := by
    intro f hf
    rw [parseMembers_step f emptyMeta _ "dim_names" (by decide) _ [rbrace]
      (parseMemberValue_dim f emptyMeta d [rbrace] hf) rbrace [] rfl
      (by decide)]
    rw [if_neg (by decide), if_pos rfl]
    rfl
  exact hstep _ (by omega)

theorem from_json_to_json_perm_only (p : List Int) :
    from_json (to_json ⟨none, some p, none⟩) = some ⟨none, some p, none⟩ := by
  have hdata : (to_json ⟨none, some p, none⟩).data =
      lbrace :: (memberChars "permutation" (arrayChars (p.map intChars))
        ++ [rbrace]) := by
    simp [to_json, metadataMembers, sepByComma]
  have hlen : (to_json ⟨none, some p, none⟩).data.length =
      (memberChars "permutation" (arrayChars (p.map intChars))).length + 2 := by
    rw [hdata]
    simp
  have hbound := length_le_member "permutation" intChars intChars_ne_nil p
  refine from_json_members _ _ _ hdata ⟨_, rfl⟩ ?_
  have hstep : ∀ f : Nat, p.length ≤ f →
      parseMembers (f + 1) emptyMeta
        (memberChars "permutation" (arrayChars (p.map intChars))
          ++ [rbrace]) =
      some (⟨none, some p, none⟩, []) := by
    intro f hf
    rw [parseMembers_step f emptyMeta _ "permutation" (by decide) _ [rbrace]
      (parseMemberValue_perm f emptyMeta p [rbrace] hf) rbrace [] rfl
      (by decide)]
    rw [if_neg (by decide), if_pos rfl]
    rfl
  exact hstep _ (by omega)

theorem from_json_to_json_uniform_only (u : List (Option Int)) :
    from_json (to_json ⟨none, none, some u⟩) = some ⟨none, none, some u⟩ := by
  have hdata : (to_json ⟨none, none, some u⟩).data =
      lbrace :: (memberChars "uniform_shape"
        (arrayChars (u.map uniformEntryChars)) ++ [rbrace]) := by
    simp [to_json, metadataMembers, sepByComma]
  have hlen : (to_json ⟨none, none, some u⟩).data.length =
      (memberChars "uniform_shape"
        (arrayChars (u.map uniformEntryChars))).length + 2 := by
    rw [hdata]
    simp
  have hbound := length_le_member "uniform_shape" uniformEntryChars
    uniformEntryChars_ne_nil u
  refine from_json_members _ _ _ hdata ⟨_, rfl⟩ ?_
  have hstep : ∀ f : Nat, u.length ≤ f →
      parseMembers (f + 1) emptyMeta
        (memberChars "uniform_shape" (arrayChars (u.map uniformEntryChars))
          ++ [rbrace]) =
      some (⟨none, none, some u⟩, []) := by
    intro f hf
    rw [parseMembers_step f emptyMeta _ "uniform_shape" (by decide) _ [rbrace]
      (parseMemberValue_uniform f emptyMeta u [rbrace] hf) rbrace [] rfl
      (by decide)]
    rw [if_neg (by decide), if_pos rfl]
    rfl
  exact hstep _ (by omega)

theorem from_json_to_json_dim_perm (d : List String) (p : List Int) :
    from_json (to_json ⟨some d, some p, none⟩) =
      some ⟨some d, some p, none⟩ := by
  have hdata : (to_json ⟨some d, some p, none⟩).data =
      lbrace :: ((memberChars "dim_names" (arrayChars (d.map jsonStringChars))
        ++ ',' :: memberChars "permutation" (arrayChars (p.map intChars)))
        ++ [rbrace]) := by
    simp [to_json, metadataMembers, sepByComma]
  have hlen : (to_json ⟨some d, some p, none⟩).data.length =
      (memberChars "dim_names" (arrayChars (d.map jsonStringChars))).length
        + 1 +
        (memberChars "permutation" (arrayChars (p.map intChars))).length
        + 2 := by
    rw [hdata]
    simp
    omega
  have hb1 := length_le_member "dim_names" jsonStringChars
    jsonStringChars_ne_nil d
  have hb2 := length_le_member "permutation" intChars intChars_ne_nil p
  refine from_json_members _ _ _ hdata ⟨_, rfl⟩ ?_
  have hassoc : (memberChars "dim_names" (arrayChars (d.map jsonStringChars))
        ++ ',' :: memberChars "permutation" (arrayChars (p.map intChars)))
        ++ [rbrace] =
      memberChars "dim_names" (arrayChars (d.map jsonStringChars))
        ++ ',' :: (memberChars "permutation" (arrayChars (p.map intChars))
          ++ [rbrace]) := by
    simp
  rw [hassoc]
  have hstep : ∀ f : Nat, d.length ≤ f + 1 → p.length ≤ f →
      parseMembers (f + 1 + 1) emptyMeta
        (memberChars "dim_names" (arrayChars (d.map jsonStringChars))
          ++ ',' :: (memberChars "permutation" (arrayChars (p.map intChars))
            ++ [rbrace])) =
      some (⟨some d, some p, none⟩, []) := by
    intro f h1 h2
    rw [parseMembers_step (f + 1) emptyMeta _ "dim_names" (by decide) _
      (',' :: (memberChars "permutation" (arrayChars (p.map intChars))
        ++ [rbrace]))
      (parseMemberValue_dim (f + 1) emptyMeta d _ h1) ','
      (memberChars "permutation" (arrayChars (p.map intChars)) ++ [rbrace])
      rfl (by decide)]
    rw [if_pos rfl]
    rw [parseMembers_step f _ _ "permutation" (by decide) _ [rbrace]
      (parseMemberValue_perm f _ p [rbrace] h2) rbrace [] rfl (by decide)]
    rw [if_neg (by decide), if_pos rfl]
    rfl
  have hpos : 1 ≤ (to_json ⟨some d, some p, none⟩).data.length := by omega
  rw [show (to_json ⟨some d, some p, none⟩).data.length + 1 =
      ((to_json ⟨some d, some p, none⟩).data.length - 1) + 1 + 1 by omega]
  exact hstep _ (by omega) (by omega)

theorem from_json_to_json_dim_uniform (d : List String)
    (u : List (Option Int)) :
    from_json (to_json ⟨some d, none, some u⟩) =
      some ⟨some d, none, some u⟩ := by
  have hdata : (to_json ⟨some d, none, some u⟩).data =
      lbrace :: ((memberChars "dim_names" (arrayChars (d.map jsonStringChars))
        ++ ',' :: memberChars "uniform_shape"
          (arrayChars (u.map uniformEntryChars)))
        ++ [rbrace]) := by
    simp [to_json, metadataMembers, sepByComma]
  have hlen : (to_json ⟨some d, none, some u⟩).data.length =
      (memberChars "dim_names" (arrayChars (d.map jsonStringChars))).length
        + 1 +
        (memberChars "uniform_shape"
          (arrayChars (u.map uniformEntryChars))).length
        + 2 := by
    rw [hdata]
    simp
    omega
  have hb1 := length_le_member "dim_names" jsonStringChars
    jsonStringChars_ne_nil d
  have hb2 := length_le_member "uniform_shape" uniformEntryChars
    uniformEntryChars_ne_nil u
  refine from_json_members _ _ _ hdata ⟨_, rfl⟩ ?_
  have hassoc : (memberChars "dim_names" (arrayChars (d.map jsonStringChars))
        ++ ',' :: memberChars "uniform_shape"
          (arrayChars (u.map uniformEntryChars)))
        ++ [rbrace] =
      memberChars "dim_names" (arrayChars (d.map jsonStringChars))
        ++ ',' :: (memberChars "uniform_shape"
          (arrayChars (u.map uniformEntryChars)) ++ [rbrace]) := by
    simp
  rw [hassoc]
  have hstep : ∀ f : Nat, d.length ≤ f + 1 → u.length ≤ f →
      parseMembers (f + 1 + 1) emptyMeta
        (memberChars "dim_names" (arrayChars (d.map jsonStringChars))
          ++ ',' :: (memberChars "uniform_shape"
            (arrayChars (u.map uniformEntryChars)) ++ [rbrace])) =
      some (⟨some d, none, some u⟩, []) := by
    intro f h1 h2
    rw [parseMembers_step (f + 1) emptyMeta _ "dim_names" (by decide) _
      (',' :: (memberChars "uniform_shape"
        (arrayChars (u.map uniformEntryChars)) ++ [rbrace]))
      (parseMemberValue_dim (f + 1) emptyMeta d _ h1) ','
      (memberChars "uniform_shape" (arrayChars (u.map uniformEntryChars))
        ++ [rbrace])
      rfl (by decide)]
    rw [if_pos rfl]
    rw [parseMembers_step f _ _ "uniform_shape" (by decide) _ [rbrace]
      (parseMemberValue_uniform f _ u [rbrace] h2) rbrace [] rfl (by decide)]
    rw [if_neg (by decide), if_pos rfl]
    rfl
  have hpos : 1 ≤ (to_json ⟨some d, none, some u⟩).data.length := by omega
  rw [show (to_json ⟨some d, none, some u⟩).data.length + 1 =
      ((to_json ⟨some d, none, some u⟩).data.length - 1) + 1 + 1 by omega]
  exact hstep _ (by omega) (by omega)

theorem from_json_to_json_perm_uniform (p : List Int)
    (u : List (Option Int)) :
    from_json (to_json ⟨none, some p, some u⟩) =
      some ⟨none, some p, some u⟩ := by
  have hdata : (to_json ⟨none, some p, some u⟩).data =
      lbrace :: ((memberChars "permutation" (arrayChars (p.map intChars))
        ++ ',' :: memberChars "uniform_shape"
          (arrayChars (u.map uniformEntryChars)))
        ++ [rbrace]) := by
    simp [to_json, metadataMembers, sepByComma]
  have hlen : (to_json ⟨none, some p, some u⟩).data.length =
      (memberChars "permutation" (arrayChars (p.map intChars))).length
        + 1 +
        (memberChars "uniform_shape"
          (arrayChars (u.map uniformEntryChars))).length
        + 2 := by
    rw [hdata]
    simp
    omega
  have hb1 := length_le_member "permutation" intChars intChars_ne_nil p
  have hb2 := length_le_member "uniform_shape" uniformEntryChars
    uniformEntryChars_ne_nil u
  refine from_json_members _ _ _ hdata ⟨_, rfl⟩ ?_
  have hassoc : (memberChars "permutation" (arrayChars (p.map intChars))
        ++ ',' :: memberChars "uniform_shape"
          (arrayChars (u.map uniformEntryChars)))
        ++ [rbrace] =
      memberChars "permutation" (arrayChars (p.map intChars))
        ++ ',' :: (memberChars "uniform_shape"
          (arrayChars (u.map uniformEntryChars)) ++ [rbrace]) := by
    simp
  rw [hassoc]
  have hstep : ∀ f : Nat, p.length ≤ f + 1 → u.length ≤ f →
      parseMembers (f + 1 + 1) emptyMeta
        (memberChars "permutation" (arrayChars (p.map intChars))
          ++ ',' :: (memberChars "uniform_shape"
            (arrayChars (u.map uniformEntryChars)) ++ [rbrace])) =
      some (⟨none, some p, some u⟩, []) := by
    intro f h1 h2
    rw [parseMembers_step (f + 1) emptyMeta _ "permutation" (by decide) _
      (',' :: (memberChars "uniform_shape"
        (arrayChars (u.map uniformEntryChars)) ++ [rbrace]))
      (parseMemberValue_perm (f + 1) emptyMeta p _ h1) ','
      (memberChars "uniform_shape" (arrayChars (u.map uniformEntryChars))
        ++ [rbrace])
      rfl (by decide)]
    rw [if_pos rfl]
    rw [parseMembers_step f _ _ "uniform_shape" (by decide) _ [rbrace]
      (parseMemberValue_uniform f _ u [rbrace] h2) rbrace [] rfl (by decide)]
    rw [if_neg (by decide), if_pos rfl]
    rfl
  have hpos : 1 ≤ (to_json ⟨none, some p, some u⟩).data.length := by omega
  rw [show (to_json ⟨none, some p, some u⟩).data.length + 1 =
      ((to_json ⟨none, some p, some u⟩).data.length - 1) + 1 + 1 by omega]
  exact hstep _ (by omega) (by omega)

theorem from_json_to_json_all (d : List String) (p : List Int)
    (u : List (Option Int)) :
    from_json (to_json ⟨some d, some p, some u⟩) =
      some ⟨some d, some p, some u⟩ := by
  have hdata : (to_json ⟨some d, some p, some u⟩).data =
      lbrace :: ((memberChars "dim_names" (arrayChars (d.map jsonStringChars))
        ++ ',' :: (memberChars "permutation" (arrayChars (p.map intChars))
          ++ ',' :: memberChars "uniform_shape"
            (arrayChars (u.map uniformEntryChars))))
        ++ [rbrace]) := by
    simp [to_json, metadataMembers, sepByComma]
  have hlen : (to_json ⟨some d, some p, some u⟩).data.length =
      (memberChars "dim_names" (arrayChars (d.map jsonStringChars))).length
        + 1 +
        (memberChars "permutation" (arrayChars (p.map intChars))).length
        + 1 +
        (memberChars "uniform_shape"
          (arrayChars (u.map uniformEntryChars))).length
        + 2 := by
    rw [hdata]
    simp
    omega
  have hb1 := length_le_member "dim_names" jsonStringChars
    jsonStringChars_ne_nil d
  have hb2 := length_le_member "permutation" intChars intChars_ne_nil p
  have hb3 := length_le_member "uniform_shape" uniformEntryChars
    uniformEntryChars_ne_nil u
  refine from_json_members _ _ _ hdata ⟨_, rfl⟩ ?_
  have hassoc : (memberChars "dim_names" (arrayChars (d.map jsonStringChars))
        ++ ',' :: (memberChars "permutation" (arrayChars (p.map intChars))
          ++ ',' :: memberChars "uniform_shape"
            (arrayChars (u.map uniformEntryChars))))
        ++ [rbrace] =
      memberChars "dim_names" (arrayChars (d.map jsonStringChars))
        ++ ',' :: (memberChars "permutation" (arrayChars (p.map intChars))
          ++ ',' :: (memberChars "uniform_shape"
            (arrayChars (u.map uniformEntryChars)) ++ [rbrace])) := by
    simp
  rw [hassoc]
  have hstep : ∀ f : Nat, d.length ≤ f + 2 → p.length ≤ f + 1 →
      u.length ≤ f →
      parseMembers (f + 1 + 1 + 1) emptyMeta
        (memberChars "dim_names" (arrayChars (d.map jsonStringChars))
          ++ ',' :: (memberChars "permutation" (arrayChars (p.map intChars))
            ++ ',' :: (memberChars "uniform_shape"
              (arrayChars (u.map uniformEntryChars)) ++ [rbrace]))) =
      some (⟨some d, some p, some u⟩, []) := by
    intro f h1 h2 h3
    rw [parseMembers_step (f + 1 + 1) emptyMeta _ "dim_names" (by decide) _
      (',' :: (memberChars "permutation" (arrayChars (p.map intChars))
        ++ ',' :: (memberChars "uniform_shape"
          (arrayChars (u.map uniformEntryChars)) ++ [rbrace])))
      (parseMemberValue_dim (f + 1 + 1) emptyMeta d _ (by omega)) ','
      (memberChars "permutation" (arrayChars (p.map intChars))
        ++ ',' :: (memberChars "uniform_shape"
          (arrayChars (u.map uniformEntryChars)) ++ [rbrace]))
      rfl (by decide)]
    rw [if_pos rfl]
    rw [parseMembers_step (f + 1) _ _ "permutation" (by decide) _
      (',' :: (memberChars "uniform_shape"
        (arrayChars (u.map uniformEntryChars)) ++ [rbrace]))
      (parseMemberValue_perm (f + 1) _ p _ h2) ','
      (memberChars "uniform_shape" (arrayChars (u.map uniformEntryChars))
        ++ [rbrace])
      rfl (by decide)]
    rw [if_pos rfl]
    rw [parseMembers_step f _ _ "uniform_shape" (by decide) _ [rbrace]
      (parseMemberValue_uniform f _ u [rbrace] h3) rbrace [] rfl (by decide)]
    rw [if_neg (by decide), if_pos rfl]
  have hpos : 2 ≤ (to_json ⟨some d, some p, some u⟩).data.length := by omega
  rw [show (to_json ⟨some d, some p, some u⟩).data.length + 1 =
      ((to_json ⟨some d, some p, some u⟩).data.length - 2) + 1 + 1 + 1
    by omega]
  exact hstep _ (by omega) (by omega) (by omega)

theorem from_json_to_json (m : TensorMetadata) :
    from_json (to_json m) = some m := by
  obtain ⟨dn, pm, us⟩ := m
  cases dn with
  | none =>
    cases pm with
    | none =>
      cases us with
      | none => decide
      | some u => exact from_json_to_json_uniform_only u
    | some p =>
      cases us with
      | none => exact from_json_to_json_perm_only p
      | some u => exact from_json_to_json_perm_uniform p u
  | some d =>
    cases pm with
    | none =>
      cases us with
      | none => exact from_json_to_json_dim_only d
      | some u => exact from_json_to_json_dim_uniform d u
    | some p =>
      cases us with
      | none => exact from_json_to_json_dim_perm d p
      | some u => exact from_json_to_json_all d p u

/-- C1: for every metadata value `m` with `m.is_valid()` true,
`from_json(to_json(m))` yields a value equal field-by-field to `m` (the
model satisfies the law for every `m`, valid or not), including the
all-absent value, which serializes to the empty object and parses back to
all three fields absent. -/
theorem C1_metadata_round_trip :
    (∀ m : TensorMetadata, m.is_valid = true → from_json (to_json m) = some m)
    ∧ to_json ⟨none, none, none⟩ = "\x7b\x7d"
    ∧ from_json "\x7b\x7d" = some ⟨none, none, none⟩ :=
  ⟨fun m _ => from_json_to_json m, by decide, by decide⟩

/-- C1 witness: the test suite's full three-field valid metadata value
round-trips through `to_json` and `from_json`. -/
theorem C1_metadata_round_trip_witness :
    TensorMetadata.is_valid
        ⟨some ["H", "W", "C"], some [2, 0, 1],
          some [some 400, none, some 3]⟩ = true
    ∧ from_json (to_json ⟨some ["H", "W", "C"], some [2, 0, 1],
          some [some 400, none, some 3]⟩) =
        some ⟨some ["H", "W", "C"], some [2, 0, 1],
          some [some 400, none, some 3]⟩ :=
  ⟨by decide,
   C1_metadata_round_trip.1
     ⟨some ["H", "W", "C"], some [2, 0, 1], some [some 400, none, some 3]⟩
     (by decide)⟩

end TensorMetadata

end SparrowExtensions
